import Mathlib

/- Formal model of the two AoC-2024 command-line programs of this repository
   (src/day-01/rs/src/main.rs and src/day-02/rs/src/main.rs).

   Rust machine integers (i32, i64) are modelled as Int together with explicit
   twos-complement wrap-around at the 32 or 64 bit boundary at every arithmetic
   operation the source performs on them (release-mode overflow semantics).
   Fallible steps (unwrap on a parse, the unchecked parse of day 2, read errors,
   out-of-bounds indexing) are modelled with Option / an explicit outcome type. -/

/-- Twos-complement wrap-around of an unbounded integer into the i32 range,
modelling Rust release-mode i32 arithmetic (2147483648 is 2 to the 31st). -/
def wrap32 (x : Int) : Int := (x + 2147483648) % 4294967296 - 2147483648

/-- Twos-complement wrap-around into the i64 range (9223372036854775808 is 2 to the 63rd). -/
def wrap64 (x : Int) : Int :=
  (x + 9223372036854775808) % 18446744073709551616 - 9223372036854775808

/-- Rust i32::abs applied to an in-range i32 value: the mathematical absolute
value wrapped back into the i32 range (so the absolute value of the most
negative i32 wraps to itself, as in Rust). -/
def i32abs (x : Int) : Int := wrap32 |x|

/-- Rust i64::abs applied to an in-range i64 value. -/
def i64abs (x : Int) : Int := wrap64 |x|

/-- The ValidationResult enum of day-02. -/
inductive ValidationResult
  | Valid
  | Invalid
deriving DecidableEq

/-- numbers.windows(2): the list of adjacent pairs of a slice. -/
def windows2 (l : List Int) : List (Int × Int) := l.zip l.tail

/-- validate_sequence of src/day-02/rs/src/main.rs (lines 59-86), on i32 values
modelled as wrapped Int arithmetic.  Length below 2 is Valid; the first
difference fixes the direction and must be nonzero with wrapped absolute value
at most 3; every later adjacent difference must follow the direction with
magnitude in the closed range 1..3. -/
def validate_sequence (numbers : List Int) : ValidationResult :=
  if numbers.length < 2 then ValidationResult.Valid
  else
    let first_diff := wrap32 (numbers[1]! - numbers[0]!)
    if first_diff = 0 ∨ 3 < i32abs first_diff then ValidationResult.Invalid
    else
      let should_increase := 0 < first_diff
      if ((windows2 numbers).drop 1).all (fun pair =>
            let diff := wrap32 (pair.2 - pair.1)
            if should_increase then decide (0 < diff ∧ diff ≤ 3)
            else decide (diff < 0 ∧ -3 ≤ diff))
      then ValidationResult.Valid else ValidationResult.Invalid

/-- The exact (unwrapped) adjacent differences of a sequence. -/
def diffs (l : List Int) : List Int := (windows2 l).map (fun p => p.2 - p.1)

/-- Specification-side predicate, following the words of the spec and of claim
C1: the sequence has length below 2, or it is strictly increasing or strictly
decreasing with every adjacent difference of absolute value in the closed range
1..3 (equivalently: every adjacent difference lies in 1..3, or every adjacent
difference lies in -3..-1). -/
def spec_valid (l : List Int) : Bool :=
  decide (l.length < 2)
    || (diffs l).all (fun d => decide (1 ≤ d ∧ d ≤ 3))
    || (diffs l).all (fun d => decide (-3 ≤ d ∧ d ≤ -1))

/-- The candidate sequence built by validate_sequence_with_dampener for one
skip_idx: numbers.iter().enumerate().filter(i not equal to skip_idx).map(value). -/
def removeAt (numbers : List Int) (skip_idx : Nat) : List Int :=
  (numbers.enum.filter (fun p => decide (p.1 ≠ skip_idx))).map Prod.snd

/-- The for-loop of validate_sequence_with_dampener over the remaining
skip indices: return Valid at the first index whose removal validates,
Invalid when the indices are exhausted. -/
def dampener_go (numbers : List Int) : List Nat → ValidationResult
  | [] => ValidationResult.Invalid
  | skip_idx :: rest =>
    if validate_sequence (removeAt numbers skip_idx) = ValidationResult.Valid then
      ValidationResult.Valid
    else dampener_go numbers rest

/-- validate_sequence_with_dampener of src/day-02/rs/src/main.rs (lines
106-127): try every skip index in 0..len in order.  (The reusable buffer of the
source is a pure allocation detail; the with_capacity(len - 1) argument would
underflow for an empty input, which the orchestration never produces — see the
safety claim.) -/
def validate_sequence_with_dampener (numbers : List Int) : ValidationResult :=
  dampener_go numbers (List.range numbers.length)

/-- One iteration of the day-02 orchestration loop (main, lines 200-211) on the
running (part1_valid_count, part2_valid_count) pair. -/
def countsStep (c : Nat × Nat) (sequence : List Int) : Nat × Nat :=
  if validate_sequence sequence = ValidationResult.Valid then (c.1 + 1, c.2 + 1)
  else if validate_sequence_with_dampener sequence = ValidationResult.Valid then
    (c.1, c.2 + 1)
  else c

/-- The day-02 orchestration over all parsed sequences, yielding the final
(part1_valid_count, part2_valid_count). -/
def processSequences (seqs : List (List Int)) : Nat × Nat :=
  seqs.foldl countsStep (0, 0)

/-- u8::is_ascii_whitespace of the bytes the parsers inspect: space, tab,
line feed, form feed, carriage return. -/
def isWs (c : Char) : Bool :=
  decide (c.toNat = 32 ∨ c.toNat = 9 ∨ c.toNat = 10 ∨ c.toNat = 12 ∨ c.toNat = 13)

/-- ASCII decimal digit test. -/
def isDigit (c : Char) : Bool := decide (48 ≤ c.toNat ∧ c.toNat ≤ 57)

/-- Value of a nonempty all-digit run; none when the run is empty or holds a
non-digit character. -/
def digitsVal (ds : List Char) : Option Nat :=
  if ds = [] ∨ ¬ ds.all isDigit then none
  else some (ds.foldl (fun a c => a * 10 + (c.toNat - 48)) 0)

/-- Rust str::parse for a signed integer type with inclusive range lo..hi:
an optional leading sign followed by at least one digit, in range; anything
else is a parse error (none). -/
def parseIntIn (lo hi : Int) (s : List Char) : Option Int :=
  let signDigits : Bool × List Char :=
    match s with
    | c :: rest =>
      if c = '-' then (true, rest)
      else if c = '+' then (false, rest) else (false, s)
    | [] => (false, [])
  match digitsVal signDigits.2 with
  | none => none
  | some n =>
    let v : Int := if signDigits.1 then -(n : Int) else (n : Int)
    if lo ≤ v ∧ v ≤ hi then some v else none

/-- str::parse::<i64>. -/
def parse_i64 (s : List Char) : Option Int :=
  parseIntIn (-9223372036854775808) 9223372036854775807 s

/-- str::parse::<i32>. -/
def parse_i32 (s : List Char) : Option Int :=
  parseIntIn (-2147483648) 2147483647 s

/-- The day-01 per-line tokenizer (main, lines 48-82): skip leading whitespace,
take the first maximal non-whitespace run, skip whitespace, take the second
maximal non-whitespace run; the rest of the line is never inspected. -/
def splitFirstTwo (line : List Char) : List Char × List Char :=
  let rest := line.dropWhile isWs
  let tok1 := rest.takeWhile (fun c => ! isWs c)
  let rest2 := (rest.dropWhile (fun c => ! isWs c)).dropWhile isWs
  let tok2 := rest2.takeWhile (fun c => ! isWs c)
  (tok1, tok2)

/-- All maximal non-whitespace runs of a line (used to state the tokenizer
claims; day 1 itself only ever looks at the first two): split the line at
every whitespace character and drop the empty chunks. -/
def tokensOf (line : List Char) : List (List Char) :=
  (line.splitOnP isWs).filter (fun t => ! t.isEmpty)

/-- Day-01 handling of one extracted token (main, lines 63-67 and 79-82): an
empty token pushes nothing; a nonempty token is parsed as i64 with unwrap, so a
parse error is a panic (none). -/
def parseTokenOpt (t : List Char) : Option (Option Int) :=
  if t.isEmpty then some none
  else
    match parse_i64 t with
    | some n => some (some n)
    | none => none

/-- Day-01 processing of one line: the contributions (left push, right push)
of the first two tokens, or none when an unwrap panics. -/
def day1_parseLine (line : List Char) : Option (Option Int × Option Int) :=
  match parseTokenOpt (splitFirstTwo line).1, parseTokenOpt (splitFirstTwo line).2 with
  | some a, some b => some (a, b)
  | _, _ => none

/-- bytes[a..b] on a list. -/
def sliceList (l : List Char) (a b : Nat) : List Char := (l.drop a).take (b - a)

/-- One iteration of the day-02 per-line parsing loop (main, lines 179-191) at
index i, on the state (start, numbers); the line is split at every space byte
and at the final index, and each extracted slice is parsed as i32 with an
UNCHECKED unwrap.  A parse error therefore has no defined behaviour in the
source (unsafe unwrap_unchecked on an Err); it is modelled as the absorbing
state none: the run does not produce a defined result. -/
def day2_step (bytes : List Char) (st : Option (Nat × List Int)) (i : Nat) :
    Option (Nat × List Int) :=
  match st with
  | none => none
  | some (start, numbers) =>
    if bytes[i]! = ' ' ∨ i = bytes.length - 1 then
      let e := if i = bytes.length - 1 then i + 1 else i
      match parse_i32 (sliceList bytes start e) with
      | none => none
      | some n => some (i + 1, numbers ++ [n])
    else some (start, numbers)

/-- Day-02 parsing of one line into a Report: the loop for i in 0..bytes.len()
over day2_step. -/
def day2_parseLine (line : List Char) : Option (List Int) :=
  ((List.range line.length).foldl (day2_step line) (some (0, []))).map Prod.snd

/-- The slices the day-02 loop extracts for a given list of indices, starting
from a given start offset (the same splitting as day2_step, collecting the
slices instead of parsing them). -/
def day2_slicesGo (bytes : List Char) : List Nat → Nat → List (List Char)
  | [], _ => []
  | i :: rest, start =>
    if bytes[i]! = ' ' ∨ i = bytes.length - 1 then
      sliceList bytes start (if i = bytes.length - 1 then i + 1 else i)
        :: day2_slicesGo bytes rest (i + 1)
    else day2_slicesGo bytes rest start

/-- All slices the day-02 parsing loop extracts from a line. -/
def day2_tokens (line : List Char) : List (List Char) :=
  day2_slicesGo line (List.range line.length) 0

/-- Outcome of a whole run: a normal result, a propagated I/O error (nonzero
exit, error returned from main), or an abnormal end with no defined printed
result (a panic from unwrap or out-of-bounds indexing, or the undefined
behaviour of the day-02 unchecked parse). -/
inductive RunOutcome (α : Type)
  | ok (v : α)
  | ioError (e : Nat)
  | abnormal
deriving DecidableEq

/-- The day-01 read-and-parse loop (main, lines 48-86) over the per-line read
results: a failed read_line propagates its error; each successful line pushes
its first token (when present) onto lefts and its second (when present) onto
rights. -/
def day1_readLoop : List (Except Nat (List Char)) → List Int → List Int →
    RunOutcome (List Int × List Int)
  | [], lefts, rights => RunOutcome.ok (lefts, rights)
  | Except.error e :: _, _, _ => RunOutcome.ioError e
  | Except.ok line :: rest, lefts, rights =>
    match day1_parseLine line with
    | none => RunOutcome.abnormal
    | some (a, b) => day1_readLoop rest (lefts ++ a.toList) (rights ++ b.toList)

/-- One iteration of the day-01 calculation loop (main, lines 101-104) over
the two sorted vectors, on i64 values: total += (lefts[i] - rights[i]).abs(). -/
def calcStep (ls rs : List Int) (total : Int) (i : Nat) : Int :=
  wrap64 (total + i64abs (wrap64 (ls[i]! - rs[i]!)))

/-- sort_unstable modelled as insertion sort: on integers any ascending sort
produces the same list, since equal elements are indistinguishable. -/
def sortInts (l : List Int) : List Int := List.insertionSort (· ≤ ·) l

/-- The final day-01 result: sort both vectors ascending, then run the loop
for i in 0..lefts.len() accumulating the absolute differences at the aligned
indices in an i64 accumulator. -/
def day1_result (lefts rights : List Int) : Int :=
  (List.range (sortInts lefts).length).foldl
    (calcStep (sortInts lefts) (sortInts rights)) 0

/-- The whole day-01 program on an abstract file (either an open error or the
list of per-line read results).  Printing is reduced to the list of numeric
results in the ok outcome; indexing rights[i] with i below lefts.len() panics
when rights is shorter, which is the out-of-bounds case of the calculation
loop. -/
def day1_run (fileRes : Except Nat (List (Except Nat (List Char)))) : RunOutcome (List Int) :=
  match fileRes with
  | Except.error e => RunOutcome.ioError e
  | Except.ok lineRs =>
    match day1_readLoop lineRs [] [] with
    | RunOutcome.ioError e => RunOutcome.ioError e
    | RunOutcome.abnormal => RunOutcome.abnormal
    | RunOutcome.ok (lefts, rights) =>
      if rights.length < lefts.length then RunOutcome.abnormal
      else RunOutcome.ok [day1_result lefts rights]

/-- The day-02 read-and-parse loop (main, lines 170-194): a failed line read
propagates its error; each parsed line is appended to the list of sequences. -/
def day2_readLoop : List (Except Nat (List Char)) → List (List Int) →
    RunOutcome (List (List Int))
  | [], seqs => RunOutcome.ok seqs
  | Except.error e :: _, _ => RunOutcome.ioError e
  | Except.ok line :: rest, seqs =>
    match day2_parseLine line with
    | none => RunOutcome.abnormal
    | some numbers => day2_readLoop rest (seqs ++ [numbers])

/-- The whole day-02 program on an abstract file: parse every line, then run
the orchestration and print the two counts. -/
def day2_run (fileRes : Except Nat (List (Except Nat (List Char)))) : RunOutcome (List Nat) :=
  match fileRes with
  | Except.error e => RunOutcome.ioError e
  | Except.ok lineRs =>
    match day2_readLoop lineRs [] with
    | RunOutcome.ioError e => RunOutcome.ioError e
    | RunOutcome.abnormal => RunOutcome.abnormal
    | RunOutcome.ok seqs =>
      RunOutcome.ok [(processSequences seqs).1, (processSequences seqs).2]

/-- Specification-side notion for claim C3: the i-th smallest element of a
list is the i-th entry of its ascending sort. -/
def ithSmallest (l : List Int) (i : Nat) : Int := (sortInts l)[i]!

/-- Specification-side total (the words of claim C3 and of the spec): the sum
over every index i of the absolute difference between the i-th smallest
element of lefts and the i-th smallest element of rights, as an exact
integer sum. -/
def specTotalDistance (lefts rights : List Int) : Int :=
  ((List.range lefts.length).map
    (fun i => |ithSmallest lefts i - ithSmallest rights i|)).sum

/-- Wrap-around is the identity on in-range values. -/
theorem wrap32_eq_self (x : Int) (h1 : -2147483648 ≤ x) (h2 : x < 2147483648) :
    wrap32 x = x := by
  unfold wrap32
  omega

/-- Wrap-around is the identity on in-range values. -/
theorem wrap64_eq_self (x : Int) (h1 : -9223372036854775808 ≤ x)
    (h2 : x < 9223372036854775808) : wrap64 x = x := by
  unfold wrap64
  omega

/-- i32::abs is the mathematical absolute value when that value is representable. -/
theorem i32abs_eq_abs (x : Int) (h : |x| < 2147483648) : i32abs x = |x| := by
  unfold i32abs
  exact wrap32_eq_self _ (le_trans (by norm_num) (abs_nonneg x)) h

/-- i64::abs is the mathematical absolute value when that value is representable. -/
theorem i64abs_eq_abs (x : Int) (h : |x| < 9223372036854775808) : i64abs x = |x| := by
  unfold i64abs
  exact wrap64_eq_self _ (le_trans (by norm_num) (abs_nonneg x)) h

theorem diffs_cons_cons (a b : Int) (l : List Int) :
    diffs (a :: b :: l) = (b - a) :: diffs (b :: l) := by
  simp [diffs, windows2]

/-- Shape of a two-valued outcome of the validator. -/
theorem ite_validation (c : Prop) [Decidable c] (d : Bool) :
    ((if c then ValidationResult.Invalid
      else if d then ValidationResult.Valid else ValidationResult.Invalid) =
        ValidationResult.Valid) ↔ (¬ c ∧ d = true) := by
  by_cases hc : c <;> by_cases hdb : d = true <;> simp [hc, hdb]

/-- Unfolding of validate_sequence on a sequence of length at least 2. -/
theorem validate_cons_cons (a b : Int) (rest : List Int) :
    validate_sequence (a :: b :: rest) =
      (if wrap32 (b - a) = 0 ∨ 3 < i32abs (wrap32 (b - a)) then ValidationResult.Invalid
       else if ((windows2 (b :: rest)).all fun pair =>
           if 0 < wrap32 (b - a) then
             decide (0 < wrap32 (pair.2 - pair.1) ∧ wrap32 (pair.2 - pair.1) ≤ 3)
           else decide (wrap32 (pair.2 - pair.1) < 0 ∧ -3 ≤ wrap32 (pair.2 - pair.1)))
       then ValidationResult.Valid else ValidationResult.Invalid) := by
  unfold validate_sequence windows2
  rw [if_neg (by simp only [List.length_cons]; omega)]
  simp only [List.getElem!_cons_succ, List.getElem!_cons_zero,
    List.tail_cons, List.zip_cons_cons, List.drop_succ_cons, List.drop_zero]

/-- Characterization of the validator on sequences whose exact adjacent
differences are representable as i32 (no subtraction overflow): Valid exactly
when the length is below 2, or all differences lie in 1..3, or all lie in
-3..-1. -/
theorem validate_valid_iff (l : List Int)
    (hd : ∀ d ∈ diffs l, -2147483648 < d ∧ d < 2147483648) :
    validate_sequence l = ValidationResult.Valid ↔
      (l.length < 2 ∨ (∀ d ∈ diffs l, 1 ≤ d ∧ d ≤ 3) ∨
        (∀ d ∈ diffs l, -3 ≤ d ∧ d ≤ -1)) := by
  cases l with
  | nil => simp [validate_sequence]
  | cons a t =>
    cases t with
    | nil => simp [validate_sequence]
    | cons b rest =>
      have hd0 : -2147483648 < b - a ∧ b - a < 2147483648 := by
        apply hd
        rw [diffs_cons_cons]
        exact List.mem_cons_self _ _
      have hw0 : wrap32 (b - a) = b - a := wrap32_eq_self _ (by omega) hd0.2
      have habs : i32abs (b - a) = |b - a| := i32abs_eq_abs _ (abs_lt.mpr hd0)
      have hwtail : ∀ d ∈ diffs (b :: rest), wrap32 d = d := by
        intro d hdm
        have hb := hd d (by rw [diffs_cons_cons]; exact List.mem_cons_of_mem _ hdm)
        exact wrap32_eq_self d (by omega) hb.2
      have hlen : ¬ ((a :: b :: rest).length < 2) := by
        simp only [List.length_cons]
        omega
      rw [validate_cons_cons]
      simp only [hw0, habs]
      rw [ite_validation]
      rcases lt_trichotomy (b - a) 0 with hneg | hzero | hpos
      · simp only [if_neg (by omega : ¬ (0 : Int) < b - a), List.all_eq_true,
          decide_eq_true_eq]
        constructor
        · rintro ⟨hA, hX⟩
          refine Or.inr (Or.inr ?_)
          intro d hdm
          rw [diffs_cons_cons] at hdm
          rcases List.mem_cons.mp hdm with rfl | hdm2
          · have h3 : |b - a| ≤ 3 := not_lt.mp (fun h => hA (Or.inr h))
            have h4 := abs_le.mp h3
            omega
          · obtain ⟨pair, hp, rfl⟩ := List.mem_map.mp hdm2
            have hx := hX pair hp
            rw [hwtail _ hdm2] at hx
            omega
        · rintro (h2 | hall | hall)
          · exact absurd h2 hlen
          · have h0 := hall (b - a) (by rw [diffs_cons_cons]; exact List.mem_cons_self _ _)
            exact absurd h0 (by omega)
          · have h0 := hall (b - a) (by rw [diffs_cons_cons]; exact List.mem_cons_self _ _)
            refine ⟨?_, ?_⟩
            · have h3 : |b - a| ≤ 3 := abs_le.mpr ⟨h0.1, by omega⟩
              omega
            · intro pair hp
              have hdm2 : pair.2 - pair.1 ∈ diffs (b :: rest) :=
                List.mem_map_of_mem _ hp
              have hx := hall _ (by rw [diffs_cons_cons]; exact List.mem_cons_of_mem _ hdm2)
              rw [hwtail _ hdm2]
              omega
      · constructor
        · rintro ⟨hA, _⟩
          exact absurd (Or.inl hzero) hA
        · rintro (h2 | hall | hall)
          · exact absurd h2 hlen
          · have h0 := hall (b - a) (by rw [diffs_cons_cons]; exact List.mem_cons_self _ _)
            exact absurd h0 (by omega)
          · have h0 := hall (b - a) (by rw [diffs_cons_cons]; exact List.mem_cons_self _ _)
            exact absurd h0 (by omega)
      · simp only [if_pos hpos, List.all_eq_true, decide_eq_true_eq]
        constructor
        · rintro ⟨hA, hX⟩
          refine Or.inr (Or.inl ?_)
          intro d hdm
          rw [diffs_cons_cons] at hdm
          rcases List.mem_cons.mp hdm with rfl | hdm2
          · have h3 : |b - a| ≤ 3 := not_lt.mp (fun h => hA (Or.inr h))
            have h4 := abs_le.mp h3
            omega
          · obtain ⟨pair, hp, rfl⟩ := List.mem_map.mp hdm2
            have hx := hX pair hp
            rw [hwtail _ hdm2] at hx
            omega
        · rintro (h2 | hall | hall)
          · exact absurd h2 hlen
          · have h0 := hall (b - a) (by rw [diffs_cons_cons]; exact List.mem_cons_self _ _)
            refine ⟨?_, ?_⟩
            · have h3 : |b - a| ≤ 3 := abs_le.mpr ⟨by omega, h0.2⟩
              omega
            · intro pair hp
              have hdm2 : pair.2 - pair.1 ∈ diffs (b :: rest) :=
                List.mem_map_of_mem _ hp
              have hx := hall _ (by rw [diffs_cons_cons]; exact List.mem_cons_of_mem _ hdm2)
              rw [hwtail _ hdm2]
              omega
          · have h0 := hall (b - a) (by rw [diffs_cons_cons]; exact List.mem_cons_self _ _)
            exact absurd h0 (by omega)

/-- The specification predicate, written out as a proposition. -/
theorem spec_valid_iff (l : List Int) :
    spec_valid l = true ↔
      (l.length < 2 ∨ (∀ d ∈ diffs l, 1 ≤ d ∧ d ≤ 3) ∨
        (∀ d ∈ diffs l, -3 ≤ d ∧ d ≤ -1)) := by
  unfold spec_valid
  simp [List.all_eq_true, or_assoc]

/-- The validator agrees with the specification predicate in the absence of
i32 subtraction overflow. -/
theorem validate_eq_spec (l : List Int)
    (hd : ∀ d ∈ diffs l, -2147483648 < d ∧ d < 2147483648) :
    (validate_sequence l = ValidationResult.Valid ↔ spec_valid l = true) :=
  (validate_valid_iff l hd).trans (spec_valid_iff l).symm

theorem diffs_append_singleton (m : List Int) (a : Int) :
    diffs (m ++ [a]) = diffs m ++ (m.getLast?.elim [] (fun x => [a - x])) := by
  induction m with
  | nil => simp [diffs, windows2]
  | cons x t ih =>
    cases t with
    | nil => simp [diffs, windows2]
    | cons y t2 =>
      rw [show (x :: y :: t2) ++ [a] = x :: ((y :: t2) ++ [a]) from rfl]
      rw [show x :: ((y :: t2) ++ [a]) = x :: y :: (t2 ++ [a]) from rfl]
      rw [diffs_cons_cons]
      rw [show y :: (t2 ++ [a]) = (y :: t2) ++ [a] from rfl, ih]
      rw [diffs_cons_cons, List.getLast?_cons_cons]
      simp

/-- The adjacent differences of a reversed list are the negated differences in
reverse order. -/
theorem diffs_reverse (l : List Int) :
    diffs l.reverse = (diffs l).reverse.map (fun d => -d) := by
  induction l with
  | nil => simp [diffs, windows2]
  | cons a t ih =>
    rw [List.reverse_cons, diffs_append_singleton, ih, List.getLast?_reverse]
    cases t with
    | nil => simp [diffs, windows2]
    | cons b t2 =>
      rw [diffs_cons_cons, List.head?_cons]
      simp [neg_sub]

/-- Reversal does not change the specification predicate. -/
theorem spec_valid_reverse (l : List Int) : spec_valid l.reverse = spec_valid l := by
  rw [Bool.eq_iff_iff, spec_valid_iff, spec_valid_iff, List.length_reverse, diffs_reverse]
  have h1 : (∀ d ∈ (diffs l).reverse.map (fun d => -d), 1 ≤ d ∧ d ≤ 3) ↔
      (∀ d ∈ diffs l, -3 ≤ d ∧ d ≤ -1) := by
    rw [List.forall_mem_map]
    simp only [List.mem_reverse]
    constructor
    · intro h d hd
      have := h d hd
      omega
    · intro h d hd
      have := h d hd
      omega
  have h2 : (∀ d ∈ (diffs l).reverse.map (fun d => -d), -3 ≤ d ∧ d ≤ -1) ↔
      (∀ d ∈ diffs l, 1 ≤ d ∧ d ≤ 3) := by
    rw [List.forall_mem_map]
    simp only [List.mem_reverse]
    constructor
    · intro h d hd
      have := h d hd
      omega
    · intro h d hd
      have := h d hd
      omega
  rw [h1, h2]
  tauto

/-- A sequence the validator rejects has at least two elements. -/
theorem validate_invalid_length (l : List Int)
    (h : validate_sequence l = ValidationResult.Invalid) : 2 ≤ l.length := by
  by_contra hlt
  push_neg at hlt
  unfold validate_sequence at h
  rw [if_pos hlt] at h
  exact ValidationResult.noConfusion h

theorem enumFrom_filter_ne_lt (t : List Int) (n k : Nat) (h : k < n) :
    ((List.enumFrom n t).filter (fun p => decide (p.1 ≠ k))).map Prod.snd = t := by
  induction t generalizing n with
  | nil => rfl
  | cons a t2 ih =>
    rw [List.enumFrom_cons, List.filter_cons]
    rw [if_pos (by simpa using by omega : decide (n ≠ k) = true)]
    rw [List.map_cons, ih (n + 1) (by omega)]

theorem enumFrom_filter_ne (t : List Int) (n j : Nat) :
    ((List.enumFrom n t).filter (fun p => decide (p.1 ≠ n + j))).map Prod.snd =
      t.eraseIdx j := by
  induction t generalizing n j with
  | nil => rfl
  | cons a t2 ih =>
    rw [List.enumFrom_cons, List.filter_cons]
    cases j with
    | zero =>
      rw [if_neg (by simp)]
      rw [List.eraseIdx_cons_zero]
      exact enumFrom_filter_ne_lt t2 (n + 1) n (by omega)
    | succ j2 =>
      rw [if_pos (by simp : decide (n ≠ n + (j2 + 1)) = true)]
      rw [List.map_cons, List.eraseIdx_cons_succ]
      have := ih (n + 1) j2
      rw [show n + 1 + j2 = n + (j2 + 1) from by omega] at this
      rw [this]

/-- The enumerate-filter-map construction of the dampener is exactly removal of
the element at the skip index, preserving the relative order of the rest. -/
theorem removeAt_eq_eraseIdx (l : List Int) (j : Nat) : removeAt l j = l.eraseIdx j := by
  unfold removeAt
  have := enumFrom_filter_ne l 0 j
  rw [show (0 : Nat) + j = j from by omega] at this
  exact this

theorem dampener_go_valid_iff (numbers : List Int) (js : List Nat) :
    dampener_go numbers js = ValidationResult.Valid ↔
      ∃ j ∈ js, validate_sequence (removeAt numbers j) = ValidationResult.Valid := by
  induction js with
  | nil => simp [dampener_go]
  | cons j t ih =>
    by_cases h : validate_sequence (removeAt numbers j) = ValidationResult.Valid
    · simp [dampener_go, h]
    · simp [dampener_go, h, ih]

/-- The dampener succeeds exactly when removing some index in 0..len yields a
sequence the plain validator accepts. -/
theorem dampener_valid_iff (numbers : List Int) :
    validate_sequence_with_dampener numbers = ValidationResult.Valid ↔
      ∃ j < numbers.length,
        validate_sequence (numbers.eraseIdx j) = ValidationResult.Valid := by
  unfold validate_sequence_with_dampener
  rw [dampener_go_valid_iff]
  constructor
  · rintro ⟨j, hj, h⟩
    exact ⟨j, List.mem_range.mp hj, by rwa [removeAt_eq_eraseIdx] at h⟩
  · rintro ⟨j, hj, h⟩
    exact ⟨j, List.mem_range.mpr hj, by rwa [removeAt_eq_eraseIdx]⟩

theorem countsStep_shift (c : Nat × Nat) (s : List Int) :
    countsStep c s = ((countsStep (0, 0) s).1 + c.1, (countsStep (0, 0) s).2 + c.2) := by
  unfold countsStep
  by_cases h1 : validate_sequence s = ValidationResult.Valid
  · simp [h1, Nat.add_comm]
  · by_cases h2 : validate_sequence_with_dampener s = ValidationResult.Valid <;>
      simp [h1, h2, Nat.add_comm]

theorem foldl_countsStep_shift (seqs : List (List Int)) (c : Nat × Nat) :
    seqs.foldl countsStep c =
      ((seqs.foldl countsStep (0, 0)).1 + c.1, (seqs.foldl countsStep (0, 0)).2 + c.2) := by
  induction seqs generalizing c with
  | nil => simp
  | cons s t ih =>
    rw [List.foldl_cons, List.foldl_cons, ih (countsStep c s), ih (countsStep (0, 0) s)]
    rw [countsStep_shift c s]
    simp [Nat.add_assoc]

theorem foldl_countsStep_le (seqs : List (List Int)) (c : Nat × Nat) (h : c.1 ≤ c.2) :
    (seqs.foldl countsStep c).1 ≤ (seqs.foldl countsStep c).2 := by
  induction seqs generalizing c with
  | nil => simpa
  | cons s t ih =>
    rw [List.foldl_cons]
    apply ih
    unfold countsStep
    by_cases h1 : validate_sequence s = ValidationResult.Valid
    · simpa [h1] using by omega
    · by_cases h2 : validate_sequence_with_dampener s = ValidationResult.Valid <;>
        simpa [h1, h2] using by omega

/-- The day-01 calculation loop computes the exact sum of absolute differences
as long as no i64 operation overflows along the way: every indexed difference
is representable and the running total stays below 2 to the 63rd (the partial
sums are monotone since every summand is nonnegative). -/
theorem foldl_calcStep_eq (ls rs : List Int) (js : List Nat) : ∀ (total : Int),
    0 ≤ total →
    (∀ j ∈ js, -9223372036854775808 < ls[j]! - rs[j]! ∧
      ls[j]! - rs[j]! < 9223372036854775808) →
    total + (js.map (fun j => |ls[j]! - rs[j]!|)).sum < 9223372036854775808 →
    js.foldl (calcStep ls rs) total =
      total + (js.map (fun j => |ls[j]! - rs[j]!|)).sum := by
  induction js with
  | nil =>
    intro total _ _ _
    simp
  | cons j t ih =>
    intro total h0 hb hs
    have hj := hb j (List.mem_cons_self _ _)
    have habs : |ls[j]! - rs[j]!| < 9223372036854775808 := abs_lt.mpr hj
    have habs0 : 0 ≤ |ls[j]! - rs[j]!| := abs_nonneg _
    have hsum0 : 0 ≤ (t.map (fun j => |ls[j]! - rs[j]!|)).sum := by
      apply List.sum_nonneg
      intro x hx
      obtain ⟨y, _, rfl⟩ := List.mem_map.mp hx
      exact abs_nonneg _
    have hmapcons : ((j :: t).map (fun j => |ls[j]! - rs[j]!|)).sum =
        |ls[j]! - rs[j]!| + (t.map (fun j => |ls[j]! - rs[j]!|)).sum := by
      simp
    rw [hmapcons] at hs
    have hstep : calcStep ls rs total j = total + |ls[j]! - rs[j]!| := by
      unfold calcStep
      rw [wrap64_eq_self _ (by omega) hj.2, i64abs_eq_abs _ habs,
        wrap64_eq_self _ (by omega) (by omega)]
    rw [List.foldl_cons, hstep,
      ih _ (by omega) (fun x hx => hb x (List.mem_cons_of_mem _ hx)) (by omega),
      hmapcons]
    ring

/-- The printed day-01 result is the exact sum of the absolute differences of
the aligned i-th smallest elements, in the absence of i64 overflow. -/
theorem day1_result_eq (lefts rights : List Int)
    (hd : ∀ i < lefts.length,
      -9223372036854775808 < ithSmallest lefts i - ithSmallest rights i ∧
        ithSmallest lefts i - ithSmallest rights i < 9223372036854775808)
    (ht : specTotalDistance lefts rights < 9223372036854775808) :
    day1_result lefts rights = specTotalDistance lefts rights := by
  have hL : (sortInts lefts).length = lefts.length := List.length_insertionSort _ _
  unfold day1_result
  rw [hL]
  have hb : ∀ j ∈ List.range lefts.length,
      -9223372036854775808 < (sortInts lefts)[j]! - (sortInts rights)[j]! ∧
        (sortInts lefts)[j]! - (sortInts rights)[j]! < 9223372036854775808 := by
    intro j hj
    exact hd j (List.mem_range.mp hj)
  have hs : (0 : Int) +
      ((List.range lefts.length).map
        (fun j => |(sortInts lefts)[j]! - (sortInts rights)[j]!|)).sum <
        9223372036854775808 := by
    simpa [specTotalDistance, ithSmallest] using ht
  have := foldl_calcStep_eq (sortInts lefts) (sortInts rights)
    (List.range lefts.length) 0 le_rfl hb hs
  rw [this]
  simp [specTotalDistance, ithSmallest]

/-- If the first maximal token of a line is empty (the line is all whitespace),
so is the second. -/
theorem dropWhile_takeWhile_empty (l : List Char)
    (h : (l.dropWhile isWs).takeWhile (fun c => ! isWs c) = []) :
    l.dropWhile isWs = [] := by
  induction l with
  | nil => rfl
  | cons c rest ih =>
    rw [List.dropWhile_cons] at h ⊢
    by_cases hc : isWs c = true
    · rw [if_pos hc] at h ⊢
      exact ih h
    · rw [if_neg hc] at h ⊢
      rw [List.takeWhile_cons, if_pos (by simp [hc])] at h
      exact absurd h (by simp)

theorem splitFirstTwo_snd_empty (line : List Char)
    (h : (splitFirstTwo line).1 = []) : (splitFirstTwo line).2 = [] := by
  unfold splitFirstTwo at h ⊢
  have h2 := dropWhile_takeWhile_empty line h
  rw [h2]
  rfl

/-- A successfully handled day-01 token contributes nothing exactly when the
token was empty. -/
theorem parseTokenOpt_none_iff (t : List Char) (a : Option Int)
    (h : parseTokenOpt t = some a) : (a = none ↔ t = []) := by
  unfold parseTokenOpt at h
  by_cases he : t.isEmpty
  · rw [if_pos he] at h
    injection h with h2
    subst h2
    simp [List.isEmpty_iff.mp he]
  · rw [if_neg he] at h
    match hp : parse_i64 t with
    | none =>
      rw [hp] at h
      exact Option.noConfusion h
    | some n =>
      rw [hp] at h
      injection h with h2
      subst h2
      constructor
      · intro hno
        exact Option.noConfusion hno
      · intro ht
        subst ht
        simp at he

/-- A successfully parsed day-01 line pushes onto lefts exactly when it pushes
onto rights, provided a line with a first token also has a second token. -/
theorem day1_parseLine_balance (line : List Char) (a b : Option Int)
    (h : day1_parseLine line = some (a, b))
    (htok : (splitFirstTwo line).1 ≠ [] → (splitFirstTwo line).2 ≠ []) :
    a.toList.length = b.toList.length := by
  unfold day1_parseLine at h
  cases h1 : parseTokenOpt (splitFirstTwo line).1 with
  | none =>
    rw [h1] at h
    exact Option.noConfusion h
  | some ao =>
    cases h2 : parseTokenOpt (splitFirstTwo line).2 with
    | none =>
      rw [h1, h2] at h
      exact Option.noConfusion h
    | some bo =>
      rw [h1, h2] at h
      injection h with h3
      rw [Prod.mk.injEq] at h3
      obtain ⟨rfl, rfl⟩ := h3
      have ha := parseTokenOpt_none_iff _ _ h1
      have hb := parseTokenOpt_none_iff _ _ h2
      cases ao with
      | none =>
        have ht2 := splitFirstTwo_snd_empty line (ha.mp rfl)
        rw [hb.mpr ht2]
      | some x =>
        have ht1 : (splitFirstTwo line).1 ≠ [] := by
          intro he
          exact Option.noConfusion (ha.mpr he)
        cases bo with
        | none => exact absurd (hb.mp rfl) (htok ht1)
        | some y => rfl

/-- Invariant of the day-01 read loop: when every parsed line with a first
token also has a second, a normally finished loop keeps the two vectors at
equal length. -/
theorem day1_readLoop_balance (lineRs : List (Except Nat (List Char))) :
    ∀ (lefts rights l r : List Int),
    (∀ line, Except.ok line ∈ lineRs →
      (splitFirstTwo line).1 ≠ [] → (splitFirstTwo line).2 ≠ []) →
    day1_readLoop lineRs lefts rights = RunOutcome.ok (l, r) →
    lefts.length = rights.length → l.length = r.length := by
  induction lineRs with
  | nil =>
    intro lefts rights l r _ h hlen
    injection h with h2
    rw [Prod.mk.injEq] at h2
    obtain ⟨rfl, rfl⟩ := h2
    exact hlen
  | cons lr rest ih =>
    intro lefts rights l r htok h hlen
    cases lr with
    | error e => exact RunOutcome.noConfusion h
    | ok line =>
      simp only [day1_readLoop] at h
      cases hp : day1_parseLine line with
      | none =>
        rw [hp] at h
        exact RunOutcome.noConfusion h
      | some ab =>
        obtain ⟨a, b⟩ := ab
        rw [hp] at h
        apply ih _ _ _ _ (fun ln hln => htok ln (List.mem_cons_of_mem _ hln)) h
        have hbal := day1_parseLine_balance line a b hp (htok line (List.mem_cons_self _ _))
        simp [hlen, hbal]

/-- A read error is propagated out of the day-01 loop when every earlier line
parses without a panic. -/
theorem day1_readLoop_error (pre : List (List Char)) :
    ∀ (e : Nat) (rest : List (Except Nat (List Char))) (lefts rights : List Int),
    (∀ line ∈ pre, day1_parseLine line ≠ none) →
    day1_readLoop (pre.map Except.ok ++ Except.error e :: rest) lefts rights =
      RunOutcome.ioError e := by
  induction pre with
  | nil =>
    intro e rest lefts rights _
    rfl
  | cons line pre2 ih =>
    intro e rest lefts rights hok
    simp only [List.map_cons, List.cons_append, day1_readLoop]
    cases hp : day1_parseLine line with
    | none => exact absurd hp (hok line (List.mem_cons_self _ _))
    | some ab =>
      obtain ⟨a, b⟩ := ab
      exact ih e rest _ _ (fun ln hln => hok ln (List.mem_cons_of_mem _ hln))

/-- A read error is propagated out of the day-02 loop when every earlier line
parses with a defined result. -/
theorem day2_readLoop_error (pre : List (List Char)) :
    ∀ (e : Nat) (rest : List (Except Nat (List Char))) (seqs : List (List Int)),
    (∀ line ∈ pre, day2_parseLine line ≠ none) →
    day2_readLoop (pre.map Except.ok ++ Except.error e :: rest) seqs =
      RunOutcome.ioError e := by
  induction pre with
  | nil =>
    intro e rest seqs _
    rfl
  | cons line pre2 ih =>
    intro e rest seqs hok
    simp only [List.map_cons, List.cons_append, day2_readLoop]
    cases hp : day2_parseLine line with
    | none => exact absurd hp (hok line (List.mem_cons_self _ _))
    | some numbers =>
      exact ih e rest _ (fun ln hln => hok ln (List.mem_cons_of_mem _ hln))

/-- The absorbing state: once the day-02 loop has hit an unchecked parse
failure, the rest of the loop has no defined result. -/
theorem foldl_day2_step_none (bytes : List Char) (js : List Nat) :
    js.foldl (day2_step bytes) none = none := by
  induction js with
  | nil => rfl
  | cons j t ih =>
    rw [List.foldl_cons]
    exact ih

/-- Unfolding of the day-02 step on a live state. -/
theorem day2_step_some (bytes : List Char) (i start : Nat) (numbers : List Int) :
    day2_step bytes (some (start, numbers)) i =
      (if bytes[i]! = ' ' ∨ i = bytes.length - 1 then
        match parse_i32 (sliceList bytes start
            (if i = bytes.length - 1 then i + 1 else i)) with
        | none => none
        | some n => some (i + 1, numbers ++ [n])
      else some (start, numbers)) := rfl

/-- If any slice the day-02 loop extracts fails to parse as i32, the loop has
no defined result. -/
theorem day2_foldl_bad (bytes : List Char) (js : List Nat) :
    ∀ (start : Nat) (nums : List Int),
    (∃ t ∈ day2_slicesGo bytes js start, parse_i32 t = none) →
    js.foldl (day2_step bytes) (some (start, nums)) = none := by
  induction js with
  | nil =>
    intro start nums h
    simp [day2_slicesGo] at h
  | cons i t ih =>
    intro start nums h
    rw [List.foldl_cons, day2_step_some]
    unfold day2_slicesGo at h
    by_cases hc : bytes[i]! = ' ' ∨ i = bytes.length - 1
    · rw [if_pos hc] at h
      rw [if_pos hc]
      cases hp : parse_i32 (sliceList bytes start
          (if i = bytes.length - 1 then i + 1 else i)) with
      | none => exact foldl_day2_step_none bytes t
      | some n =>
        obtain ⟨tk, htk, hbad⟩ := h
        rcases List.mem_cons.mp htk with rfl | htk2
        · exact absurd hp (by simp [hbad])
        · exact ih (i + 1) (nums ++ [n]) ⟨tk, htk2, hbad⟩
    · rw [if_neg hc] at h
      rw [if_neg hc]
      exact ih start nums h

/-- A line holding any slice that is not valid i32 text has no defined day-02
parse result (the source would reach unwrap_unchecked on an Err). -/
theorem day2_parseLine_bad (line : List Char)
    (h : ∃ t ∈ day2_tokens line, parse_i32 t = none) :
    day2_parseLine line = none := by
  unfold day2_parseLine
  unfold day2_tokens at h
  rw [day2_foldl_bad line (List.range line.length) 0 [] h]
  rfl

/-- Inserting one empty line adds exactly one to both final counts. -/
theorem counts_insert_empty (pre post : List (List Int)) :
    processSequences (pre ++ ([] : List Int) :: post) =
      ((processSequences (pre ++ post)).1 + 1,
        (processSequences (pre ++ post)).2 + 1) := by
  unfold processSequences
  rw [List.foldl_append, List.foldl_append, List.foldl_cons]
  have hstep : countsStep (List.foldl countsStep (0, 0) pre) [] =
      ((List.foldl countsStep (0, 0) pre).1 + 1,
        (List.foldl countsStep (0, 0) pre).2 + 1) := by
    unfold countsStep
    rw [if_pos (by decide : validate_sequence [] = ValidationResult.Valid)]
  rw [hstep, foldl_countsStep_shift post _, foldl_countsStep_shift post (List.foldl countsStep (0, 0) pre)]
  simp [Nat.add_assoc]

/-- C1 (counterexample): the claim fails as stated over all i32 sequences.
For the two-element i32 sequence [i32::MIN, i32::MAX] the i32 subtraction
numbers[1] - numbers[0] wraps to -1, so validate_sequence answers Valid, while
the sequence is strictly increasing with an adjacent difference far outside
1..3, so the stated specification demands Invalid. -/
theorem validate_sequence_overflow_cex :
    validate_sequence [-2147483648, 2147483647] = ValidationResult.Valid ∧
    spec_valid [-2147483648, 2147483647] = false := by decide

/-- C1 (amended): for every sequence of signed 32-bit integers whose adjacent
exact differences are themselves representable as i32 (no subtraction
overflow), validate_sequence returns Valid iff the sequence has length below 2,
or it is strictly increasing or strictly decreasing with every adjacent
difference of absolute value in the closed range 1..3. -/
theorem validate_sequence_iff_spec (numbers : List Int)
    (_helems : ∀ x ∈ numbers, -2147483648 ≤ x ∧ x < 2147483648)
    (hdiffs : ∀ d ∈ diffs numbers, -2147483648 < d ∧ d < 2147483648) :
    (validate_sequence numbers = ValidationResult.Valid ↔ spec_valid numbers = true) :=
  validate_eq_spec numbers hdiffs

/-- C1 (witness): the amended theorem at the concrete sequence [1,3,6,7,9]. -/
theorem validate_sequence_iff_spec_witness :
    (validate_sequence [1, 3, 6, 7, 9] = ValidationResult.Valid ↔
      spec_valid [1, 3, 6, 7, 9] = true) :=
  validate_sequence_iff_spec [1, 3, 6, 7, 9] (by decide) (by decide)

/-- C2 (confirmed): on a sequence the plain validator rejected, the dampener
returns Valid iff some index j in 0..len is such that erasing index j
(preserving the relative order of the remaining elements) yields a sequence the
plain validator accepts, and it returns Invalid exactly when no removal
works. -/
theorem dampener_iff_exists_removal (numbers : List Int)
    (_hpre : validate_sequence numbers = ValidationResult.Invalid) :
    (validate_sequence_with_dampener numbers = ValidationResult.Valid ↔
      ∃ j < numbers.length,
        validate_sequence (numbers.eraseIdx j) = ValidationResult.Valid) ∧
    (validate_sequence_with_dampener numbers = ValidationResult.Invalid ↔
      ¬ ∃ j < numbers.length,
        validate_sequence (numbers.eraseIdx j) = ValidationResult.Valid) := by
  have h := dampener_valid_iff numbers
  refine ⟨h, ?_, ?_⟩
  · intro hInv hE
    have h2 := h.mpr hE
    rw [hInv] at h2
    exact ValidationResult.noConfusion h2
  · intro hnE
    cases hr : validate_sequence_with_dampener numbers with
    | Valid => exact absurd (h.mp hr) hnE
    | Invalid => rfl

/-- C2 (witness): the theorem at the concrete invalid sequence [1,3,2,4,5]. -/
theorem dampener_iff_exists_removal_witness :
    (validate_sequence_with_dampener [1, 3, 2, 4, 5] = ValidationResult.Valid ↔
      ∃ j < ([1, 3, 2, 4, 5] : List Int).length,
        validate_sequence (([1, 3, 2, 4, 5] : List Int).eraseIdx j) =
          ValidationResult.Valid) ∧
    (validate_sequence_with_dampener [1, 3, 2, 4, 5] = ValidationResult.Invalid ↔
      ¬ ∃ j < ([1, 3, 2, 4, 5] : List Int).length,
        validate_sequence (([1, 3, 2, 4, 5] : List Int).eraseIdx j) =
          ValidationResult.Valid) :=
  dampener_iff_exists_removal [1, 3, 2, 4, 5] (by decide)

/-- C3 (counterexample): the claim fails as stated over all i64 inputs of equal
length.  For lefts = [i64::MAX] and rights = [i64::MIN] the i64 subtraction
wraps to -1 and the program prints 1, while the absolute difference of the
0-th smallest elements is 2 to the 64th minus 1. -/
theorem day1_result_overflow_cex :
    ([(9223372036854775807 : Int)].length = [(-9223372036854775808 : Int)].length) ∧
    day1_result [9223372036854775807] [-9223372036854775808] = 1 ∧
    specTotalDistance [9223372036854775807] [-9223372036854775808] =
      18446744073709551615 ∧
    ((1 : Int) ≠ 18446744073709551615) := by decide

/-- C3 (amended): for index-aligned sequences of equal length, when every
aligned difference of i-th smallest elements is representable as i64 and the
exact total stays below 2 to the 63rd (no i64 overflow during accumulation),
the printed day-01 result equals the sum over every index i of the absolute
difference between the i-th smallest element of lefts and the i-th smallest
element of rights; in particular for lefts = [3,4,2,1,3,3] and
rights = [4,3,5,3,9,3] the total distance is 11. -/
theorem day1_result_eq_sorted_abs_sum (lefts rights : List Int)
    (_hlen : lefts.length = rights.length)
    (hd : ∀ i < lefts.length,
      -9223372036854775808 < ithSmallest lefts i - ithSmallest rights i ∧
        ithSmallest lefts i - ithSmallest rights i < 9223372036854775808)
    (ht : specTotalDistance lefts rights < 9223372036854775808) :
    day1_result lefts rights = specTotalDistance lefts rights ∧
    day1_result [3, 4, 2, 1, 3, 3] [4, 3, 5, 3, 9, 3] = 11 :=
  ⟨day1_result_eq lefts rights hd ht, by decide⟩

/-- C3 (witness): the amended theorem at the canonical spec six-element
input. -/
theorem day1_result_eq_sorted_abs_sum_witness :
    day1_result [3, 4, 2, 1, 3, 3] [4, 3, 5, 3, 9, 3] =
      specTotalDistance [3, 4, 2, 1, 3, 3] [4, 3, 5, 3, 9, 3] :=
  (day1_result_eq_sorted_abs_sum [3, 4, 2, 1, 3, 3] [4, 3, 5, 3, 9, 3]
    (by decide) (by decide) (by decide)).1

/-- C4 (counterexample): the invariant fails as stated for an input file whose
single line holds one token: the parsing loop finishes normally with
lefts = [5] and rights = [], of different lengths. -/
theorem day1_unbalanced_line_cex :
    day1_readLoop [Except.ok ['5']] [] [] = RunOutcome.ok ([5], []) ∧
    ([(5 : Int)].length ≠ ([] : List Int).length) := by decide

/-- C4 (amended): when every successfully read line that yields a first token
also yields a second token, the two sequences collected by a normally finished
day-01 parsing loop have equal length. -/
theorem day1_parse_balanced_lengths (lineRs : List (Except Nat (List Char)))
    (l r : List Int)
    (htok : ∀ line, Except.ok line ∈ lineRs →
      (splitFirstTwo line).1 ≠ [] → (splitFirstTwo line).2 ≠ [])
    (hrun : day1_readLoop lineRs [] [] = RunOutcome.ok (l, r)) :
    l.length = r.length :=
  day1_readLoop_balance lineRs [] [] l r htok hrun rfl

/-- C4 (witness): the amended theorem on the single well-formed line 1 2. -/
theorem day1_parse_balanced_lengths_witness :
    [(1 : Int)].length = [(2 : Int)].length :=
  day1_parse_balanced_lengths [Except.ok ['1', ' ', '2']] [1] [2]
    (by
      intro line hline h1
      rw [List.mem_singleton] at hline
      injection hline with h2
      subst h2
      decide)
    (by decide)

/-- C5 (confirmed): the dampened classification is monotone in permissiveness.
A sequence the plain validator accepts is counted by the orchestration step in
both the Part 1 and the Part 2 counter, and consequently the final Part 1 count
never exceeds the final Part 2 count. -/
theorem part2_count_ge_part1 (seqs : List (List Int)) (c : Nat × Nat)
    (s : List Int) (h : validate_sequence s = ValidationResult.Valid) :
    countsStep c s = (c.1 + 1, c.2 + 1) ∧
    (processSequences seqs).1 ≤ (processSequences seqs).2 := by
  constructor
  · unfold countsStep
    rw [if_pos h]
  · exact foldl_countsStep_le seqs (0, 0) le_rfl

/-- C5 (witness): the theorem at the concrete valid sequence [1,2]. -/
theorem part2_count_ge_part1_witness :
    countsStep (0, 0) [1, 2] = (0 + 1, 0 + 1) ∧
    (processSequences [[1, 2]]).1 ≤ (processSequences [[1, 2]]).2 :=
  part2_count_ge_part1 [[1, 2]] (0, 0) [1, 2] (by decide)

/-- C6 (counterexample): reversal symmetry fails as stated over all i32
sequences.  For [-1, i32::MAX, i32::MAX - 1] the first i32 subtraction wraps to
i32::MIN, which slips past the magnitude check because i32::MIN.abs() wraps to
i32::MIN, and the sequence is accepted; its reversal is rejected. -/
theorem validate_reverse_overflow_cex :
    validate_sequence ([-1, 2147483647, 2147483646] : List Int).reverse ≠
      validate_sequence [-1, 2147483647, 2147483646] := by decide

/-- C6 (amended): for every sequence of signed 32-bit integers whose adjacent
exact differences are representable as i32 (no subtraction overflow),
validate_sequence applied to the reversal returns the same ValidationResult as
validate_sequence applied to the sequence itself. -/
theorem validate_sequence_reverse_eq (l : List Int)
    (_helems : ∀ x ∈ l, -2147483648 ≤ x ∧ x < 2147483648)
    (hdiffs : ∀ d ∈ diffs l, -2147483648 < d ∧ d < 2147483648) :
    validate_sequence l.reverse = validate_sequence l := by
  have hdr : ∀ d ∈ diffs l.reverse, -2147483648 < d ∧ d < 2147483648 := by
    rw [diffs_reverse]
    intro d hd2
    rw [List.mem_map] at hd2
    obtain ⟨d2, hd2m, rfl⟩ := hd2
    rw [List.mem_reverse] at hd2m
    have := hdiffs d2 hd2m
    omega
  have h1 := validate_eq_spec l.reverse hdr
  have h2 := validate_eq_spec l hdiffs
  have h3 : spec_valid l.reverse = spec_valid l := spec_valid_reverse l
  cases hr : validate_sequence l.reverse with
  | Valid =>
    cases hl : validate_sequence l with
    | Valid => rfl
    | Invalid =>
      have hs : spec_valid l = true := by
        rw [← h3]
        exact h1.mp hr
      exact absurd (h2.mpr hs) (by simp [hl])
  | Invalid =>
    cases hl : validate_sequence l with
    | Valid =>
      have hs : spec_valid l.reverse = true := by
        rw [h3]
        exact h2.mp hl
      exact absurd (h1.mpr hs) (by simp [hr])
    | Invalid => rfl

/-- C6 (witness): the amended theorem at the concrete sequence [7,6,4,2,1]. -/
theorem validate_sequence_reverse_eq_witness :
    validate_sequence ([7, 6, 4, 2, 1] : List Int).reverse =
      validate_sequence [7, 6, 4, 2, 1] :=
  validate_sequence_reverse_eq [7, 6, 4, 2, 1] (by decide) (by decide)

/-- C7 (counterexample): the claim fails as stated.  The line 1 2 x contains
the maximal non-whitespace token x, which is not valid decimal text, yet the
day-01 parser only ever reads the first two tokens of a line, so the run
completes normally with lefts = [1], rights = [2] instead of aborting. -/
theorem untouched_bad_token_cex :
    (['x'] ∈ tokensOf ['1', ' ', '2', ' ', 'x']) ∧
    parse_i64 ['x'] = none ∧
    day1_readLoop [Except.ok ['1', ' ', '2', ' ', 'x']] [] [] =
      RunOutcome.ok ([1], [2]) := by decide

/-- C7 (amended): a non-numeric token is fatal exactly for the tokens a program
actually parses.  If either of the first two tokens of a day-01 line is
nonempty and not valid i64 text, the day-01 loop panics on the unwrap
(abnormal, no result printed); if any slice the day-02 splitting extracts from
a line is not valid i32 text, the day-02 parse of that line has no defined
result (the unchecked unwrap of an Err). -/
theorem bad_token_is_fatal (line : List Char) (rest : List (Except Nat (List Char)))
    (lefts rights : List Int) (bytes : List Char)
    (h1 : ((splitFirstTwo line).1 ≠ [] ∧ parse_i64 ((splitFirstTwo line).1) = none) ∨
          ((splitFirstTwo line).2 ≠ [] ∧ parse_i64 ((splitFirstTwo line).2) = none))
    (h2 : ∃ t ∈ day2_tokens bytes, parse_i32 t = none) :
    day1_readLoop (Except.ok line :: rest) lefts rights = RunOutcome.abnormal ∧
    day2_parseLine bytes = none := by
  constructor
  · have hpl : day1_parseLine line = none := by
      unfold day1_parseLine
      rcases h1 with ⟨hne, hbad⟩ | ⟨hne, hbad⟩
      · have hfst : parseTokenOpt (splitFirstTwo line).1 = none := by
          unfold parseTokenOpt
          rw [if_neg (by simpa [List.isEmpty_iff] using hne), hbad]
        rw [hfst]
      · have hsnd : parseTokenOpt (splitFirstTwo line).2 = none := by
          unfold parseTokenOpt
          rw [if_neg (by simpa [List.isEmpty_iff] using hne), hbad]
        cases hfst : parseTokenOpt (splitFirstTwo line).1 with
        | none => rfl
        | some a => rw [hsnd]
    simp only [day1_readLoop]
    rw [hpl]
  · exact day2_parseLine_bad bytes h2

/-- C7 (witness): the amended theorem on the one-token line x for both
programs. -/
theorem bad_token_is_fatal_witness :
    day1_readLoop [Except.ok ['x']] [] [] = RunOutcome.abnormal ∧
    day2_parseLine ['x'] = none :=
  bad_token_is_fatal ['x'] [] [] [] ['x'] (by decide) (by decide)

/-- C8 (confirmed): a failed file open is propagated as the I/O error outcome
of both programs, and a failed line read reached after well-parsed lines is
propagated the same way; in every such run the outcome is the nonzero-exit
ioError carrying the error, with no printed result. -/
theorem io_error_propagates (e : Nat) (pre : List (List Char))
    (rest : List (Except Nat (List Char)))
    (h1 : ∀ line ∈ pre, day1_parseLine line ≠ none)
    (h2 : ∀ line ∈ pre, day2_parseLine line ≠ none) :
    day1_run (Except.error e) = RunOutcome.ioError e ∧
    day2_run (Except.error e) = RunOutcome.ioError e ∧
    day1_run (Except.ok (pre.map Except.ok ++ Except.error e :: rest)) =
      RunOutcome.ioError e ∧
    day2_run (Except.ok (pre.map Except.ok ++ Except.error e :: rest)) =
      RunOutcome.ioError e := by
  refine ⟨rfl, rfl, ?_, ?_⟩
  · simp only [day1_run]
    rw [day1_readLoop_error pre e rest [] [] h1]
  · simp only [day2_run]
    rw [day2_readLoop_error pre e rest [] h2]

/-- C8 (witness): the theorem at error code 7 after the well-formed line 1 2. -/
theorem io_error_propagates_witness :
    day1_run (Except.error 7) = RunOutcome.ioError 7 ∧
    day2_run (Except.error 7) = RunOutcome.ioError 7 ∧
    day1_run (Except.ok ([['1', ' ', '2']].map Except.ok ++
      Except.error 7 :: [])) = RunOutcome.ioError 7 ∧
    day2_run (Except.ok ([['1', ' ', '2']].map Except.ok ++
      Except.error 7 :: [])) = RunOutcome.ioError 7 :=
  io_error_propagates 7 [['1', ' ', '2']] [] (by decide) (by decide)

/-- C9 (confirmed): every sequence the plain validator rejects has length at
least 2; hence whenever the orchestration invokes the dampener the capacity
computation len - 1 cannot underflow (it is at least 1), and every removal
candidate the dampener builds has length len - 1 and is nonempty. -/
theorem dampener_precondition_safety (l : List Int)
    (h : validate_sequence l = ValidationResult.Invalid) :
    2 ≤ l.length ∧ 1 ≤ l.length - 1 ∧
    ∀ j < l.length, (removeAt l j).length = l.length - 1 ∧ removeAt l j ≠ [] := by
  have h2 := validate_invalid_length l h
  refine ⟨h2, by omega, ?_⟩
  intro j hj
  rw [removeAt_eq_eraseIdx]
  have hlen : (l.eraseIdx j).length = l.length - 1 := by
    rw [List.length_eraseIdx, if_pos hj]
  refine ⟨hlen, ?_⟩
  intro hnil
  rw [hnil] at hlen
  simp at hlen
  omega

/-- C9 (witness): the theorem at the concrete rejected sequence [1,1]. -/
theorem dampener_precondition_safety_witness :
    2 ≤ ([1, 1] : List Int).length ∧ 1 ≤ ([1, 1] : List Int).length - 1 ∧
    ∀ j < ([1, 1] : List Int).length,
      (removeAt [1, 1] j).length = ([1, 1] : List Int).length - 1 ∧
        removeAt [1, 1] j ≠ [] :=
  dampener_precondition_safety [1, 1] (by decide)

/-- C10 (confirmed): an empty day-02 input line parses to the empty Report,
which validate_sequence classifies as Valid, and inserting an empty report
anywhere in the processed sequence list adds exactly one to both the Part 1 and
the Part 2 valid count. -/
theorem empty_line_counts :
    day2_parseLine [] = some [] ∧
    validate_sequence ([] : List Int) = ValidationResult.Valid ∧
    ∀ (pre post : List (List Int)),
      processSequences (pre ++ ([] : List Int) :: post) =
        ((processSequences (pre ++ post)).1 + 1,
          (processSequences (pre ++ post)).2 + 1) := by
  refine ⟨by decide, by decide, ?_⟩
  exact counts_insert_empty

